import Mathlib

/-!
# Kandinsky bitmap font (`kandinsky/font.h`)

A shallow embedding of `class KDFont`: the compile-time constants, the
`GlyphBuffer` union, the glyph offset table accessors, the `stringSize`
wrapper and the render palette, followed by the properties proved about them.

Conventions of the embedding.
* `uint8_t`, `uint16_t` and `uint32_t` values are natural numbers; the range
  of a value is stated where it matters and every narrowing conversion is an
  explicit `% 2 ^ w`.
* A pointer is the address it holds, a natural number; `nullptr` is `0` and
  adding `n` to a pointer to bytes adds `n` to the address.
* `int` arithmetic is arithmetic in `Int`.
-/

namespace KDFont

/-! ## Constants and type aliases -/

/-- The number of bits of one grayscale sample: `k_bitsPerPixel`. -/
def k_bitsPerPixel : Nat := 4

/-- The largest pixel count of a glyph: `k_maxGlyphPixelCount`. -/
def k_maxGlyphPixelCount : Nat := 180

/-- A `CodePoint` wraps a `uint32_t`. -/
abbrev CodePoint := Nat

/-- A `GlyphIndex` is a `uint8_t`; values are below `256`. -/
abbrev GlyphIndex := Nat

/-- The glyph drawn for a code point the font cannot draw. -/
def IndexForReplacementCharacterCodePoint : Nat := 133

/-- An address; `nullptr` is the address `0`. -/
abbrev Pointer := Nat

/-- The null pointer. -/
def nullptr : Pointer := 0

/-- A `KDSize`: a width and a height. -/
structure KDSize where
  width : Int
  height : Int
deriving DecidableEq

/-- The first code point of a series of consecutive code points, with the
glyph index of that first code point. -/
structure CodePointIndexPair where
  m_codePoint : CodePoint
  m_glyphIndex : GlyphIndex
deriving DecidableEq

namespace CodePointIndexPair

/-- The accessor `codePoint()`. -/
def codePoint (p : CodePointIndexPair) : CodePoint := p.m_codePoint

/-- The accessor `glyphIndex()`. -/
def glyphIndex (p : CodePointIndexPair) : GlyphIndex := p.m_glyphIndex

end CodePointIndexPair

end KDFont

/-- The fields of a `KDFont`. `m_table` holds the `m_tableLength` pairs that
the table pointer designates, `m_glyphDataOffset` is the array of `uint16_t`
read through the offset pointer (`m_glyphDataOffset j` is element `j`), and
`m_data` is the address of the first byte of the compressed glyph data. -/
structure KDFont where
  m_table : List KDFont.CodePointIndexPair
  m_glyphSize : KDFont.KDSize
  m_glyphDataOffset : Nat → Nat
  m_data : Nat

namespace KDFont

/-- The field `m_tableLength`. -/
def m_tableLength (f : KDFont) : Nat := f.m_table.length

/-- Every element of the offset table is a `uint16_t`. -/
def OffsetsAre16Bit (f : KDFont) : Prop := ∀ j, f.m_glyphDataOffset j < 2 ^ 16

/-! ## Glyph store -/

/-- The address `m_data + m_glyphDataOffset[index]`. -/
def compressedGlyphData (f : KDFont) (index : Nat) : Nat :=
  f.m_data + f.m_glyphDataOffset index

/-- The value `m_glyphDataOffset[index+1] - m_glyphDataOffset[index]`: `index`
and both table elements are promoted to `int`, so `index+1` is not reduced
and the difference is an `int`; the result is converted to `uint16_t`. -/
def compressedGlyphDataSize (f : KDFont) (index : Nat) : Nat :=
  (((f.m_glyphDataOffset (index + 1) : Int) - (f.m_glyphDataOffset index : Int)) % 2 ^ 16).toNat

/-! ## String measurement -/

/-- The inline `stringSize(text, textLength)`. The member `stringSizeUntil`
is only declared in the header; it is the parameter `stringSizeUntil`, a
function of the text pointer and the limit pointer. -/
def stringSize (stringSizeUntil : Pointer → Pointer → KDSize) (text : Pointer)
    (textLength : Int) : KDSize :=
  stringSizeUntil text (if textLength < 0 then nullptr else text + textLength.toNat)

/-- The default argument of `stringSize`: `textLength = -1`. -/
def stringSizeDefault (stringSizeUntil : Pointer → Pointer → KDSize) (text : Pointer) : KDSize :=
  stringSize stringSizeUntil text (-1)

/-! ## Glyph buffer -/

namespace GlyphBuffer

/-- The number of elements of `uint8_t m_grayscales[2*k_maxGlyphPixelCount]`. -/
def m_grayscalesCount : Nat := 2 * k_maxGlyphPixelCount

/-- The number of elements of `KDColor m_colors[k_maxGlyphPixelCount]`. -/
def m_colorsCount : Nat := k_maxGlyphPixelCount

/-- The array `m_grayscales` as a pointer: its cell `0`. -/
def m_grayscales : Nat := 0

/-- The cell of `m_grayscales` that `grayscaleBuffer()` points to. -/
def grayscaleBuffer : Nat := m_grayscales

/-- The cell of `m_grayscales` that `secondaryGrayscaleBuffer()` points to. -/
def secondaryGrayscaleBuffer : Nat := m_grayscales + k_maxGlyphPixelCount

/-- The cell of `m_colors` that `colorBuffer()` points to. -/
def colorBuffer : Nat := 0

/-- The size in bytes of `m_grayscales`; a `uint8_t` is one byte. -/
def grayscalesFootprint : Nat := m_grayscalesCount * 1

/-- The size in bytes of `m_colors`, for a `KDColor` of `sizeofKDColor` bytes
(`KDColor` is declared outside this header). -/
def colorsFootprint (sizeofKDColor : Nat) : Nat := m_colorsCount * sizeofKDColor

end GlyphBuffer

/-! ## Render palette -/

/-- Modelled from the spec: the color type `KDColor`, declared outside this
header. The spec interpolates colors per channel, so a color is its three
channel values. -/
structure KDColor where
  red : Nat
  green : Nat
  blue : Nat
deriving DecidableEq

/-- Modelled from the spec: the class template `KDPalette<S>` of `palette.h`,
which this header includes and which is not among the sources: a table of
`S` colors. -/
structure KDPalette (S : Nat) where
  m_colors : Fin S → KDColor

namespace KDPalette

/-- Modelled from the spec: entry `i` of a palette of `S` colors; there is
an entry exactly for the indices below `S`. -/
def colorAtIndex {S : Nat} (p : KDPalette S) (i : Nat) : Option KDColor :=
  if h : i < S then some (p.m_colors ⟨i, h⟩) else none

/-- Modelled from the spec: the value at step `i` of `n` of the linear
interpolation of one channel from `a` (step `0`) to `b` (step `n`). -/
def interpolateChannel (a b i n : Nat) : Nat := (a * (n - i) + b * i) / n

/-- Modelled from the spec: `KDPalette<S>::Gradient(fromColor, toColor)` of
`palette.h`, which is not among the sources. The spec gives the gradient of
`renderPalette(textColor, backgroundColor)` as `N` colors, entry `0` the
background color (the second argument), entry `N-1` the text color (the first
argument) and the entries in between interpolated linearly per channel. -/
def Gradient (S : Nat) (fromColor toColor : KDColor) : KDPalette S :=
  ⟨fun i =>
    { red := interpolateChannel toColor.red fromColor.red i.val (S - 1)
      green := interpolateChannel toColor.green fromColor.green i.val (S - 1)
      blue := interpolateChannel toColor.blue fromColor.blue i.val (S - 1) }⟩

end KDPalette

/-- The number of entries of a render palette: the template argument
`(1<<k_bitsPerPixel)`. -/
def RenderPaletteSize : Nat := 1 <<< k_bitsPerPixel

/-- The alias `RenderPalette = KDPalette<(1<<k_bitsPerPixel)>`. -/
abbrev RenderPalette := KDPalette RenderPaletteSize

/-- The inline `renderPalette(textColor, backgroundColor)`; it does not read
the font. -/
def renderPalette (textColor backgroundColor : KDColor) : RenderPalette :=
  KDPalette.Gradient RenderPaletteSize textColor backgroundColor

/-! ## Code point index

`indexForCodePoint` is declared in the header and defined elsewhere. The
header describes the table: it holds the pair of the first code point of each
series of consecutive code points of the glyph table, so the series of a pair
maps to consecutive glyph indices and ends where the glyphs of the next pair
begin. -/

/-- The code point of entry `i` of a table. -/
def codePointAt (t : List CodePointIndexPair) (i : Nat) : Nat :=
  (t.getD i ⟨0, 0⟩).codePoint

/-- The glyph index of entry `i` of a table. -/
def glyphIndexAt (t : List CodePointIndexPair) (i : Nat) : Nat :=
  (t.getD i ⟨0, 0⟩).glyphIndex

/-- Modelled from the spec: the length of the run that entry `i` starts. The
glyphs of a run are consecutive, so a run that is not the last has as many
code points as there are glyph indices before the next entry, and the last
run has the remaining glyph slots of a font of `glyphCount` glyphs. -/
def runLength (t : List CodePointIndexPair) (glyphCount : Nat) (i : Nat) : Nat :=
  if i + 1 < t.length then glyphIndexAt t (i + 1) - glyphIndexAt t i
  else glyphCount - glyphIndexAt t i

/-- Modelled from the spec: the binary search of `indexForCodePoint` over
the entries `lo ≤ i < hi`, by halving. It returns the number of leading
entries it found to start at or before `c`, so the entry just before the
result is the greatest entry whose code point is at most `c`. Each step
shrinks `hi - lo`; `fuel` bounds the number of steps. -/
def searchRun (t : List CodePointIndexPair) (c : Nat) : Nat → Nat → Nat → Nat
  | 0, lo, _ => lo
  | fuel + 1, lo, hi =>
    if lo < hi then
      if codePointAt t ((lo + hi) / 2) ≤ c then searchRun t c fuel ((lo + hi) / 2 + 1) hi
      else searchRun t c fuel lo ((lo + hi) / 2)
    else lo

/-- Modelled from the spec: `indexForCodePoint(c)`, whose definition is not
among the sources, for a font of `glyphCount` glyphs. Binary search finds the
greatest entry whose code point is at most `c`; when there is one and `c`
lies within the length of its run the result is
`entry.glyphIndex + (c - entry.codePoint)`, converted to the `uint8_t` the
function returns; otherwise the result is the replacement index. -/
def indexForCodePoint (f : KDFont) (glyphCount : Nat) (c : Nat) : Nat :=
  let found := searchRun f.m_table c f.m_tableLength 0 f.m_tableLength
  if found = 0 then IndexForReplacementCharacterCodePoint
  else if c - codePointAt f.m_table (found - 1) < runLength f.m_table glyphCount (found - 1) then
    (glyphIndexAt f.m_table (found - 1) + (c - codePointAt f.m_table (found - 1))) % 2 ^ 8
  else IndexForReplacementCharacterCodePoint

/-- The code point `c` lies inside the run that entry `k` of the table
declares: at or after its first code point, and within its length. -/
def InRun (f : KDFont) (glyphCount : Nat) (k : Nat) (c : Nat) : Prop :=
  k < f.m_table.length ∧ codePointAt f.m_table k ≤ c ∧
    c < codePointAt f.m_table k + runLength f.m_table glyphCount k

instance (f : KDFont) (glyphCount k : Nat) (c : Nat) :
    Decidable (InRun f glyphCount k c) := by
  unfold InRun; infer_instance

/-- The code point `c` lies outside every run the table declares. -/
def OutsideRuns (f : KDFont) (glyphCount : Nat) (c : Nat) : Prop :=
  ∀ k, k < f.m_table.length → ¬ InRun f glyphCount k c

instance (f : KDFont) (glyphCount : Nat) (c : Nat) :
    Decidable (OutsideRuns f glyphCount c) := by
  unfold OutsideRuns; infer_instance

/-- The table of a font of `glyphCount` glyphs is well formed: the code
points of its entries ascend, the run of an entry ends at or before the first
code point of the next entry, every glyph index is a `uint8_t`, and the font
has at most `256` glyphs. -/
def WellFormedTable (f : KDFont) (glyphCount : Nat) : Prop :=
  (∀ i, i < f.m_table.length - 1 → codePointAt f.m_table i < codePointAt f.m_table (i + 1)) ∧
  (∀ i, i < f.m_table.length - 1 →
    codePointAt f.m_table i + runLength f.m_table glyphCount i ≤ codePointAt f.m_table (i + 1)) ∧
  (∀ i, i < f.m_table.length → glyphIndexAt f.m_table i < 2 ^ 8) ∧
  glyphCount ≤ 2 ^ 8

instance (f : KDFont) (glyphCount : Nat) : Decidable (WellFormedTable f glyphCount) := by
  unfold WellFormedTable; infer_instance

/-! ## Example fonts -/

/-- A font of `100` glyphs with three runs: code points `32..126` on glyphs
`0..94`, `160..162` on glyphs `95..97`, and `8364..8365` on glyphs `98..99`. -/
def exampleFont : KDFont where
  m_table := [⟨32, 0⟩, ⟨160, 95⟩, ⟨8364, 98⟩]
  m_glyphSize := ⟨7, 14⟩
  m_glyphDataOffset := fun j => if j ≤ 256 then 20 * j else 5120
  m_data := 4096

/-- A font whose offset table decreases from glyph `0` to glyph `1`. -/
def decreasingFont : KDFont where
  m_table := []
  m_glyphSize := ⟨7, 14⟩
  m_glyphDataOffset := fun j => if j = 0 then 300 else 100
  m_data := 4096

end KDFont

namespace KDFont

/-! ## Lemmas on the binary search -/

theorem searchRun_range (t : List CodePointIndexPair) (c : Nat) (fuel : Nat) :
    ∀ lo hi, lo ≤ hi →
      lo ≤ searchRun t c fuel lo hi ∧ searchRun t c fuel lo hi ≤ hi ∧
        (searchRun t c fuel lo hi = lo ∨ codePointAt t (searchRun t c fuel lo hi - 1) ≤ c) := by
  induction fuel with
  | zero => intro lo hi h; simp [searchRun, h]
  | succ fuel ih =>
    intro lo hi h
    unfold searchRun
    by_cases hlt : lo < hi
    · rw [if_pos hlt]
      by_cases hc : codePointAt t ((lo + hi) / 2) ≤ c
      · rw [if_pos hc]
        obtain ⟨h1, h2, h3⟩ := ih ((lo + hi) / 2 + 1) hi (by omega)
        refine ⟨by omega, h2, ?_⟩
        rcases h3 with h3 | h3
        · right; rw [h3]; simpa using hc
        · right; exact h3
      · rw [if_neg hc]
        obtain ⟨h1, h2, h3⟩ := ih lo ((lo + hi) / 2) (by omega)
        exact ⟨h1, by omega, h3⟩
    · rw [if_neg hlt]; exact ⟨le_refl _, h, Or.inl rfl⟩

/-- Fuel beyond `hi - lo` is never used: the search takes at most `hi - lo`
steps. -/
theorem searchRun_fuel (t : List CodePointIndexPair) (c : Nat) (fuel : Nat) :
    ∀ extra lo hi, hi - lo ≤ fuel →
      searchRun t c (fuel + extra) lo hi = searchRun t c fuel lo hi := by
  induction fuel with
  | zero =>
    intro extra lo hi h
    cases extra with
    | zero => rfl
    | succ e => simp only [Nat.zero_add]; unfold searchRun; rw [if_neg (by omega)]
  | succ fuel ih =>
    intro extra lo hi h
    rw [show fuel + 1 + extra = (fuel + extra) + 1 by omega]
    unfold searchRun
    by_cases hlt : lo < hi
    · simp only [if_pos hlt]
      rw [ih extra _ _ (by omega), ih extra _ _ (by omega)]
    · simp only [if_neg hlt]

theorem codePointAt_ascending (t : List CodePointIndexPair)
    (h : ∀ i, i < t.length - 1 → codePointAt t i < codePointAt t (i + 1)) :
    ∀ i j, i < j → j < t.length → codePointAt t i < codePointAt t j := by
  intro i j hij
  induction j, hij using Nat.le_induction with
  | base => intro hj; exact h i (by omega)
  | succ m hm ih =>
    intro hj
    exact lt_trans (ih (by omega)) (h m (by omega))

theorem searchRun_partition (t : List CodePointIndexPair) (c : Nat)
    (hs : ∀ i j, i < j → j < t.length → codePointAt t i < codePointAt t j) (fuel : Nat) :
    ∀ lo hi, hi ≤ t.length → hi - lo ≤ fuel →
      (∀ i, i < lo → codePointAt t i ≤ c) →
      (∀ i, hi ≤ i → i < t.length → c < codePointAt t i) →
      (∀ i, i < searchRun t c fuel lo hi → codePointAt t i ≤ c) ∧
        (∀ i, searchRun t c fuel lo hi ≤ i → i < t.length → c < codePointAt t i) := by
  induction fuel with
  | zero =>
    intro lo hi _ hf hlo hhi
    simp only [searchRun]
    exact ⟨hlo, fun i hi1 hi2 => hhi i (by omega) hi2⟩
  | succ fuel ih =>
    intro lo hi hn hf hlo hhi
    unfold searchRun
    by_cases hlt : lo < hi
    · rw [if_pos hlt]
      by_cases hc : codePointAt t ((lo + hi) / 2) ≤ c
      · rw [if_pos hc]
        refine ih _ hi hn (by omega) ?_ hhi
        intro i hi1
        rcases Nat.lt_or_ge i ((lo + hi) / 2) with h1 | h1
        · exact le_trans (le_of_lt (hs i _ h1 (by omega))) hc
        · have : i = (lo + hi) / 2 := by omega
          rw [this]; exact hc
      · rw [if_neg hc]
        refine ih lo _ (by omega) (by omega) hlo ?_
        intro i hi1 hi2
        rcases Nat.lt_or_ge ((lo + hi) / 2) i with h1 | h1
        · exact lt_trans (not_le.mp hc) (hs _ i h1 hi2)
        · have : i = (lo + hi) / 2 := by omega
          rw [this]; exact not_le.mp hc
    · rw [if_neg hlt]
      exact ⟨hlo, fun i hi1 hi2 => hhi i (by omega) hi2⟩

/-- On a well-formed table the search stops just after the entry whose run
holds the code point. -/
theorem searchRun_of_inRun (f : KDFont) (glyphCount k : Nat) (c : Nat)
    (hwf : WellFormedTable f glyphCount) (hin : InRun f glyphCount k c) :
    searchRun f.m_table c f.m_tableLength 0 f.m_tableLength = k + 1 := by
  obtain ⟨hasc, hsep, _, _⟩ := hwf
  obtain ⟨hk, hge, hlt⟩ := hin
  have hs := codePointAt_ascending f.m_table hasc
  obtain ⟨h1, h2⟩ := searchRun_partition f.m_table c hs f.m_tableLength 0 f.m_tableLength
    (le_refl _) (by simp [m_tableLength]) (by intro i hi; omega)
    (by intro i hi1 hi2; simp only [m_tableLength] at hi1; omega)
  obtain ⟨_, hr, _⟩ := searchRun_range f.m_table c f.m_tableLength 0 f.m_tableLength (Nat.zero_le _)
  simp only [m_tableLength] at *
  generalize searchRun f.m_table c f.m_table.length 0 f.m_table.length = r at *
  have hkr : k < r := by
    by_contra hcon
    have := h2 k (by omega) hk
    omega
  have hrk : r ≤ k + 1 := by
    by_contra hcon
    have a1 := h1 (k + 1) (by omega)
    have a2 := hsep k (by omega)
    omega
  omega

theorem indexForCodePoint_of_inRun (f : KDFont) (glyphCount k : Nat) (c : Nat)
    (hwf : WellFormedTable f glyphCount) (hin : InRun f glyphCount k c) :
    indexForCodePoint f glyphCount c
      = glyphIndexAt f.m_table k + (c - codePointAt f.m_table k) := by
  have hr := searchRun_of_inRun f glyphCount k c hwf hin
  obtain ⟨_, _, hg, hcount⟩ := hwf
  obtain ⟨hk, hge, hlt⟩ := hin
  simp only [indexForCodePoint, hr, Nat.add_sub_cancel]
  rw [if_neg (by omega), if_pos (by omega)]
  apply Nat.mod_eq_of_lt
  have hgk := hg k hk
  unfold runLength at hlt
  by_cases hlast : k + 1 < f.m_table.length
  · rw [if_pos hlast] at hlt
    have := hg (k + 1) hlast
    omega
  · rw [if_neg hlast] at hlt
    omega

theorem indexForCodePoint_of_outsideRuns (f : KDFont) (glyphCount : Nat) (c : Nat)
    (hout : OutsideRuns f glyphCount c) :
    indexForCodePoint f glyphCount c = IndexForReplacementCharacterCodePoint := by
  obtain ⟨_, hr, hfound⟩ :=
    searchRun_range f.m_table c f.m_tableLength 0 f.m_tableLength (Nat.zero_le _)
  simp only [indexForCodePoint]
  generalize searchRun f.m_table c f.m_tableLength 0 f.m_tableLength = r at *
  by_cases h0 : r = 0
  · rw [if_pos h0]
  · rw [if_neg h0]
    by_cases hin : c - codePointAt f.m_table (r - 1) < runLength f.m_table glyphCount (r - 1)
    · exfalso
      have hle : codePointAt f.m_table (r - 1) ≤ c := by
        rcases hfound with h | h
        · exact absurd h h0
        · exact h
      simp only [m_tableLength] at hr
      exact hout (r - 1) (by omega) ⟨by omega, hle, by omega⟩
    · rw [if_neg hin]

/-- With an empty table every code point is outside every run. -/
theorem outsideRuns_of_nil (f : KDFont) (glyphCount : Nat) (c : Nat) (h : f.m_table = []) :
    OutsideRuns f glyphCount c := by
  intro k hk
  rw [h] at hk
  exact absurd hk (Nat.not_lt_zero k)

/-- On a table with ascending code points, a code point before the first
entry is outside every run. -/
theorem outsideRuns_of_lt_first (f : KDFont) (glyphCount : Nat) (c : Nat)
    (hasc : ∀ i, i < f.m_table.length - 1 →
      codePointAt f.m_table i < codePointAt f.m_table (i + 1))
    (h : c < codePointAt f.m_table 0) : OutsideRuns f glyphCount c := by
  intro k hk hin
  have hge := hin.2.1
  rcases Nat.eq_zero_or_pos k with h0 | h0
  · rw [h0] at hge; omega
  · have := codePointAt_ascending f.m_table hasc 0 k h0 hk
    omega

/-- On a table with ascending code points and non-overlapping runs, a code
point at or after the end of the run of an entry and before the code point of
the next entry lies in a gap: it is outside every run. The same holds past
the run of the last entry. -/
theorem outsideRuns_of_past_run (f : KDFont) (glyphCount k : Nat) (c : Nat)
    (hasc : ∀ i, i < f.m_table.length - 1 →
      codePointAt f.m_table i < codePointAt f.m_table (i + 1))
    (hsep : ∀ i, i < f.m_table.length - 1 →
      codePointAt f.m_table i + runLength f.m_table glyphCount i ≤ codePointAt f.m_table (i + 1))
    (hk : k < f.m_table.length)
    (hpast : codePointAt f.m_table k + runLength f.m_table glyphCount k ≤ c)
    (hnext : k + 1 < f.m_table.length → c < codePointAt f.m_table (k + 1)) :
    OutsideRuns f glyphCount c := by
  intro j hj hin
  obtain ⟨_, hge, hlt⟩ := hin
  have hs := codePointAt_ascending f.m_table hasc
  rcases Nat.lt_trichotomy j k with h1 | h1 | h1
  · have a := hsep j (by omega)
    rcases Nat.eq_or_lt_of_le (Nat.succ_le_of_lt h1) with h2 | h2
    · rw [← h2] at hpast; simp only [Nat.succ_eq_add_one] at hpast; omega
    · have b := hs (j + 1) k h2 hk
      omega
  · rw [h1] at hlt; omega
  · have a := hnext (by omega)
    rcases Nat.eq_or_lt_of_le (Nat.succ_le_of_lt h1) with h2 | h2
    · rw [← h2] at hge; simp only [Nat.succ_eq_add_one] at hge; omega
    · have b := hs (k + 1) j h2 hj
      omega

theorem exampleFont_offsets : OffsetsAre16Bit exampleFont := by
  intro j
  simp only [exampleFont]
  split <;> omega

theorem decreasingFont_offsets : OffsetsAre16Bit decreasingFont := by
  intro j
  simp only [decreasingFont]
  split <;> omega

theorem compressedGlyphDataSize_of_le (f : KDFont) (i : Nat) (h16 : OffsetsAre16Bit f)
    (hmono : f.m_glyphDataOffset i ≤ f.m_glyphDataOffset (i + 1)) :
    compressedGlyphDataSize f i = f.m_glyphDataOffset (i + 1) - f.m_glyphDataOffset i := by
  have h1 := h16 (i + 1)
  unfold compressedGlyphDataSize
  omega

/-! ## Code point index -/

/-- C1: on a font whose table is sorted ascending with non-overlapping runs
(glyph indices of 8 bits, at most 256 glyphs), a code point `c` inside the run
that entry `k` declares resolves to the glyph index of the entry plus the
offset of `c` from the code point of the entry; and the resolved index is
strictly increasing over the code points of that run. -/
theorem indexForCodePoint_in_run (f : KDFont) (glyphCount k : Nat) (c : Nat)
    (hwf : WellFormedTable f glyphCount) (hin : InRun f glyphCount k c) :
    indexForCodePoint f glyphCount c
        = glyphIndexAt f.m_table k + (c - codePointAt f.m_table k) ∧
      ∀ c2, InRun f glyphCount k c2 → c < c2 →
        indexForCodePoint f glyphCount c < indexForCodePoint f glyphCount c2 := by
  refine ⟨indexForCodePoint_of_inRun f glyphCount k c hwf hin, ?_⟩
  intro c2 hin2 hlt
  rw [indexForCodePoint_of_inRun f glyphCount k c hwf hin,
    indexForCodePoint_of_inRun f glyphCount k c2 hwf hin2]
  have h1 := hin.2.1
  omega

/-- The statement of C1 at the code point `161` of the second run of the
example font. -/
theorem indexForCodePoint_in_run_witness :
    WellFormedTable exampleFont 100 ∧ InRun exampleFont 100 1 161 ∧
      (indexForCodePoint exampleFont 100 161
          = glyphIndexAt exampleFont.m_table 1 + (161 - codePointAt exampleFont.m_table 1) ∧
        ∀ c2, InRun exampleFont 100 1 c2 → 161 < c2 →
          indexForCodePoint exampleFont 100 161 < indexForCodePoint exampleFont 100 c2) :=
  ⟨by decide, by decide, indexForCodePoint_in_run exampleFont 100 1 161 (by decide) (by decide)⟩

/-- C2: a code point outside every run the table declares (before the first
run, in a gap between two runs, past the last run, or any code point when the
table is empty) resolves to the replacement index, which is `133`. -/
theorem indexForCodePoint_outside_runs (f : KDFont) (glyphCount : Nat) (c : Nat)
    (hout : OutsideRuns f glyphCount c) :
    indexForCodePoint f glyphCount c = IndexForReplacementCharacterCodePoint ∧
      IndexForReplacementCharacterCodePoint = 133 :=
  ⟨indexForCodePoint_of_outsideRuns f glyphCount c hout, rfl⟩

/-- The statement of C2 at the code point `130`, in the gap between the first
two runs of the example font. -/
theorem indexForCodePoint_outside_runs_witness :
    OutsideRuns exampleFont 100 130 ∧
      (indexForCodePoint exampleFont 100 130 = IndexForReplacementCharacterCodePoint ∧
        IndexForReplacementCharacterCodePoint = 133) :=
  ⟨by decide, indexForCodePoint_outside_runs exampleFont 100 130 (by decide)⟩

/-! ## Glyph store -/

/-- C3: for a table of `uint16_t` offsets with `offset[i] ≤ offset[i+1]`, the
compressed size of glyph `i` is the exact integer difference
`offset[i+1] - offset[i]`, which is not negative. The index `i + 1` is not
reduced modulo `256`: the size of glyph `255` is `offset[256] - offset[255]`. -/
theorem compressedGlyphDataSize_exact (f : KDFont) (i : Nat) (h16 : OffsetsAre16Bit f)
    (hmono : f.m_glyphDataOffset i ≤ f.m_glyphDataOffset (i + 1)) :
    (compressedGlyphDataSize f i : Int)
        = (f.m_glyphDataOffset (i + 1) : Int) - (f.m_glyphDataOffset i : Int) ∧
      (0 : Int) ≤ (f.m_glyphDataOffset (i + 1) : Int) - (f.m_glyphDataOffset i : Int) := by
  rw [compressedGlyphDataSize_of_le f i h16 hmono]
  omega

/-- The statement of C3 at glyph `255` of the example font, whose size is read
from the elements `255` and `256` of the offset table. -/
theorem compressedGlyphDataSize_exact_witness :
    OffsetsAre16Bit exampleFont ∧
      exampleFont.m_glyphDataOffset 255 ≤ exampleFont.m_glyphDataOffset (255 + 1) ∧
      ((compressedGlyphDataSize exampleFont 255 : Int)
          = (exampleFont.m_glyphDataOffset (255 + 1) : Int)
            - (exampleFont.m_glyphDataOffset 255 : Int) ∧
        (0 : Int) ≤ (exampleFont.m_glyphDataOffset (255 + 1) : Int)
          - (exampleFont.m_glyphDataOffset 255 : Int)) :=
  ⟨exampleFont_offsets, by decide,
    compressedGlyphDataSize_exact exampleFont 255 exampleFont_offsets (by decide)⟩

/-- C9: for a table of `uint16_t` offsets with `offset[i] ≤ offset[i+1]`, the
bytes of glyph `i` end where those of the next glyph begin: the address
`compressedGlyphData(i)` plus `compressedGlyphDataSize(i)` is the data address
plus `offset[i+1]`, which for `i < 255` is `compressedGlyphData(i+1)`. -/
theorem compressedGlyphData_contiguous (f : KDFont) (i : Nat) (h16 : OffsetsAre16Bit f)
    (hmono : f.m_glyphDataOffset i ≤ f.m_glyphDataOffset (i + 1)) :
    compressedGlyphData f i + compressedGlyphDataSize f i
        = f.m_data + f.m_glyphDataOffset (i + 1) ∧
      (i < 255 →
        compressedGlyphData f i + compressedGlyphDataSize f i = compressedGlyphData f (i + 1) ∧
          compressedGlyphData f i ≤ compressedGlyphData f (i + 1)) := by
  rw [compressedGlyphDataSize_of_le f i h16 hmono]
  simp only [compressedGlyphData]
  omega

/-- The statement of C9 at glyph `3` of the example font. -/
theorem compressedGlyphData_contiguous_witness :
    OffsetsAre16Bit exampleFont ∧
      exampleFont.m_glyphDataOffset 3 ≤ exampleFont.m_glyphDataOffset (3 + 1) ∧
      (compressedGlyphData exampleFont 3 + compressedGlyphDataSize exampleFont 3
          = exampleFont.m_data + exampleFont.m_glyphDataOffset (3 + 1) ∧
        (3 < 255 →
          compressedGlyphData exampleFont 3 + compressedGlyphDataSize exampleFont 3
            = compressedGlyphData exampleFont (3 + 1) ∧
          compressedGlyphData exampleFont 3 ≤ compressedGlyphData exampleFont (3 + 1))) :=
  ⟨exampleFont_offsets, by decide,
    compressedGlyphData_contiguous exampleFont 3 exampleFont_offsets (by decide)⟩

/-- C10: for any table of `uint16_t` offsets, monotone or not, the compressed
size of glyph `i` is `(offset[i+1] - offset[i]) mod 2^16`; when
`offset[i+1] < offset[i]` it is the wrapped value
`65536 - (offset[i] - offset[i+1])`, a positive number. -/
theorem compressedGlyphDataSize_wraps (f : KDFont) (i : Nat) (h16 : OffsetsAre16Bit f) :
    (compressedGlyphDataSize f i : Int)
        = ((f.m_glyphDataOffset (i + 1) : Int) - (f.m_glyphDataOffset i : Int)) % 2 ^ 16 ∧
      (f.m_glyphDataOffset (i + 1) < f.m_glyphDataOffset i →
        compressedGlyphDataSize f i
            = 65536 - (f.m_glyphDataOffset i - f.m_glyphDataOffset (i + 1)) ∧
          0 < compressedGlyphDataSize f i) := by
  have h1 := h16 (i + 1)
  have h2 := h16 i
  unfold compressedGlyphDataSize
  constructor
  · omega
  · intro hlt
    omega

/-- The statement of C10 at glyph `0` of the font whose offsets decrease from
`300` to `100`: the size is `65336`. -/
theorem compressedGlyphDataSize_wraps_witness :
    OffsetsAre16Bit decreasingFont ∧ compressedGlyphDataSize decreasingFont 0 = 65336 ∧
      ((compressedGlyphDataSize decreasingFont 0 : Int)
          = ((decreasingFont.m_glyphDataOffset (0 + 1) : Int)
            - (decreasingFont.m_glyphDataOffset 0 : Int)) % 2 ^ 16 ∧
        (decreasingFont.m_glyphDataOffset (0 + 1) < decreasingFont.m_glyphDataOffset 0 →
          compressedGlyphDataSize decreasingFont 0
              = 65536 - (decreasingFont.m_glyphDataOffset 0
                - decreasingFont.m_glyphDataOffset (0 + 1)) ∧
            0 < compressedGlyphDataSize decreasingFont 0)) :=
  ⟨decreasingFont_offsets, by decide,
    compressedGlyphDataSize_wraps decreasingFont 0 decreasingFont_offsets⟩

/-! ## String measurement -/

/-- C4: `stringSize(text, textLength)` is `stringSizeUntil(text, nullptr)` when
`textLength < 0`, in particular for the default `-1`, and
`stringSizeUntil(text, text + textLength)` when `textLength ≥ 0`; for
`textLength = 0` the limit is `text` itself. -/
theorem stringSize_limit (stringSizeUntil : Pointer → Pointer → KDSize) (text : Pointer)
    (textLength : Int) :
    (textLength < 0 → stringSize stringSizeUntil text textLength = stringSizeUntil text nullptr) ∧
      (0 ≤ textLength →
        stringSize stringSizeUntil text textLength
          = stringSizeUntil text (text + textLength.toNat)) ∧
      stringSizeDefault stringSizeUntil text = stringSizeUntil text nullptr ∧
      stringSize stringSizeUntil text 0 = stringSizeUntil text text := by
  refine ⟨?_, ?_, ?_, ?_⟩
  · intro h
    simp only [stringSize, if_pos h]
  · intro h
    simp only [stringSize, if_neg (not_lt.mpr h)]
  · simp [stringSizeDefault, stringSize]
  · simp [stringSize]

/-! ## Glyph buffer -/

/-- C5: the grayscale region of a `GlyphBuffer` has `2*180 = 360` cells, the
primary plane starts at cell `0` and the secondary plane at cell `180`; for
pixel indices `p, q < 180` the primary cell `p` and the secondary cell `q` are
distinct cells and both lie inside the region. -/
theorem glyphBuffer_planes (p q : Nat) (hp : p < k_maxGlyphPixelCount)
    (hq : q < k_maxGlyphPixelCount) :
    GlyphBuffer.m_grayscalesCount = 360 ∧ GlyphBuffer.grayscaleBuffer = 0 ∧
      GlyphBuffer.secondaryGrayscaleBuffer = 180 ∧
      GlyphBuffer.grayscaleBuffer + p ≠ GlyphBuffer.secondaryGrayscaleBuffer + q ∧
      GlyphBuffer.grayscaleBuffer + p < GlyphBuffer.m_grayscalesCount ∧
      GlyphBuffer.secondaryGrayscaleBuffer + q < GlyphBuffer.m_grayscalesCount := by
  have h360 : GlyphBuffer.m_grayscalesCount = 360 := rfl
  have h0 : GlyphBuffer.grayscaleBuffer = 0 := rfl
  have h180 : GlyphBuffer.secondaryGrayscaleBuffer = 180 := rfl
  have hmax : k_maxGlyphPixelCount = 180 := rfl
  rw [hmax] at hp hq
  rw [h360, h0, h180]
  refine ⟨rfl, rfl, rfl, by omega, by omega, by omega⟩

/-- The statement of C5 at the last primary cell and the first secondary
cell. -/
theorem glyphBuffer_planes_witness :
    179 < k_maxGlyphPixelCount ∧ 0 < k_maxGlyphPixelCount ∧
      (GlyphBuffer.m_grayscalesCount = 360 ∧ GlyphBuffer.grayscaleBuffer = 0 ∧
        GlyphBuffer.secondaryGrayscaleBuffer = 180 ∧
        GlyphBuffer.grayscaleBuffer + 179 ≠ GlyphBuffer.secondaryGrayscaleBuffer + 0 ∧
        GlyphBuffer.grayscaleBuffer + 179 < GlyphBuffer.m_grayscalesCount ∧
        GlyphBuffer.secondaryGrayscaleBuffer + 0 < GlyphBuffer.m_grayscalesCount) :=
  ⟨by decide, by decide, glyphBuffer_planes 179 0 (by decide) (by decide)⟩

/-- C8: the color interpretation of a `GlyphBuffer` holds `180` color values;
for a color value of two bytes its footprint, `180 * 2 = 360` bytes, is the
footprint of the two grayscale planes, `2 * 180 * 1 = 360` bytes, and two
bytes is the only width of a color value for which the footprints agree. -/
theorem glyphBuffer_footprints :
    GlyphBuffer.m_colorsCount = k_maxGlyphPixelCount ∧ GlyphBuffer.m_colorsCount = 180 ∧
      GlyphBuffer.colorsFootprint 2 = 360 ∧ GlyphBuffer.grayscalesFootprint = 360 ∧
      GlyphBuffer.colorsFootprint 2 = GlyphBuffer.grayscalesFootprint ∧
      ∀ sizeofKDColor,
        GlyphBuffer.colorsFootprint sizeofKDColor = GlyphBuffer.grayscalesFootprint
          ↔ sizeofKDColor = 2 := by
  refine ⟨rfl, rfl, rfl, rfl, rfl, ?_⟩
  intro s
  simp only [GlyphBuffer.colorsFootprint, GlyphBuffer.grayscalesFootprint,
    GlyphBuffer.m_colorsCount, GlyphBuffer.m_grayscalesCount, k_maxGlyphPixelCount]
  omega

/-! ## Render palette -/

theorem interpolateChannel_first (a b n : Nat) (hn : 0 < n) :
    KDPalette.interpolateChannel a b 0 n = a := by
  simp [KDPalette.interpolateChannel, Nat.mul_div_cancel _ hn]

theorem interpolateChannel_last (a b n : Nat) (hn : 0 < n) :
    KDPalette.interpolateChannel a b n n = b := by
  simp [KDPalette.interpolateChannel, Nat.mul_div_cancel _ hn]

/-- C6: entry `0` of `renderPalette(textColor, backgroundColor)` is
`backgroundColor` and entry `15` is `textColor`. -/
theorem renderPalette_ends (textColor backgroundColor : KDColor) :
    (renderPalette textColor backgroundColor).colorAtIndex 0 = some backgroundColor ∧
      (renderPalette textColor backgroundColor).colorAtIndex 15 = some textColor := by
  have h0 : (0 : Nat) < RenderPaletteSize := by decide
  have h15 : (15 : Nat) < RenderPaletteSize := by decide
  have hS : RenderPaletteSize - 1 = 15 := by decide
  constructor
  · simp only [renderPalette, KDPalette.colorAtIndex, dif_pos h0, KDPalette.Gradient, hS,
      interpolateChannel_first _ _ 15 (by decide)]
  · simp only [renderPalette, KDPalette.colorAtIndex, dif_pos h15, KDPalette.Gradient, hS,
      interpolateChannel_last _ _ 15 (by decide)]

/-- C7: a render palette has `2 ^ k_bitsPerPixel = 16` entries, with
`k_bitsPerPixel = 4`, and the indices at which it has an entry are exactly the
values `0..15` of a sample of `k_bitsPerPixel` bits. -/
theorem renderPalette_size (p : RenderPalette) (s : Nat) :
    k_bitsPerPixel = 4 ∧ RenderPaletteSize = 2 ^ k_bitsPerPixel ∧ RenderPaletteSize = 16 ∧
      (s < 2 ^ k_bitsPerPixel ↔ s ≤ 15) ∧
      (s < 2 ^ k_bitsPerPixel ↔ (p.colorAtIndex s).isSome = true) := by
  refine ⟨rfl, by decide, by decide, ?_, ?_⟩
  · simp only [k_bitsPerPixel]; omega
  · have hS : RenderPaletteSize = 16 := by decide
    simp only [k_bitsPerPixel, KDPalette.colorAtIndex]
    by_cases h : s < RenderPaletteSize
    · rw [dif_pos h]; simp; omega
    · rw [dif_neg h]; simp; omega

end KDFont
